import Mathlib

/-!
Verification development for the dataset context cache and search pipeline
of the bildutforskaren API.

The Python modules under `api/` are shallowly embedded: vectors are lists of
integers, numpy arrays are lists, `OrderedDict` is a list of key-value pairs
(front = least recently used), and external collaborators (the CLIP model,
SHA-256) are parameters of the definitions that use them.
-/

/-! ## Similarity search (`api/indexing.py`, `api/routes_dataset_scoped.py`) -/

/-- Squared Euclidean distance of a query against one row, modelling
`diff = self._vectors - q; dists = np.sum(diff * diff, axis=1)` in
`NumpyIndex.search` (api/indexing.py). Vector entries are modelled as
integers. -/
def sqDist (q v : List Int) : Int :=
  (List.zipWith (fun a b => (a - b) * (a - b)) v q).sum

/-- The contract of `np.argsort(dists)` with the default
`kind='quicksort'` (an unstable sort, as used by `NumpyIndex.search`): the
result is some permutation of the positions along which the distance
values are non-decreasing.  The order among positions with equal distances
is NOT specified by the library; properties of the search must hold for
every `order` satisfying this predicate. -/
def npArgsortSpec (ds : List Int) (order : List Nat) : Prop :=
  order.Perm (List.range ds.length) ∧
  order.Pairwise (fun i j => ds.getD i 0 ≤ ds.getD j 0)

instance (ds : List Int) (order : List Nat) : Decidable (npArgsortSpec ds order) := by
  unfold npArgsortSpec
  infer_instance

/-- Comparison for the executable realization of `np.argsort` below:
positions compared by distance value, ties broken by ascending position.
This fixed tie order is one admissible outcome of `npArgsortSpec`, chosen
only so that the route models stay executable (needed for concrete
counterexamples and witnesses); no claim's tie-order conclusion rests on
it. -/
def argsortRel (ds : List Int) (i j : Nat) : Prop :=
  ds.getD i 0 < ds.getD j 0 ∨ (ds.getD i 0 = ds.getD j 0 ∧ i ≤ j)

instance (ds : List Int) : DecidableRel (argsortRel ds) := fun i j => by
  unfold argsortRel; infer_instance

instance (ds : List Int) : IsTotal Nat (argsortRel ds) := by
  constructor
  intro i j
  unfold argsortRel
  rcases lt_trichotomy (ds.getD i 0) (ds.getD j 0) with h | h | h
  · exact Or.inl (Or.inl h)
  · rcases Nat.le_total i j with hij | hij
    · exact Or.inl (Or.inr ⟨h, hij⟩)
    · exact Or.inr (Or.inr ⟨h.symm, hij⟩)
  · exact Or.inr (Or.inl h)

instance (ds : List Int) : IsTrans Nat (argsortRel ds) := by
  constructor
  intro i j k hij hjk
  unfold argsortRel at *
  rcases hij with h₁ | ⟨e₁, l₁⟩ <;> rcases hjk with h₂ | ⟨e₂, l₂⟩
  · exact Or.inl (h₁.trans h₂)
  · exact Or.inl (e₂ ▸ h₁)
  · exact Or.inl (e₁ ▸ h₂)
  · exact Or.inr ⟨e₁.trans e₂, l₁.trans l₂⟩

/-- One admissible outcome of `np.argsort(dists)` (see `npArgsortSpec`):
the positions `0 .. len-1` sorted by distance with ascending-position tie
order.  Used to keep the route models executable; the library guarantees
only `npArgsortSpec`. -/
def argsort (ds : List Int) : List Nat :=
  (List.range ds.length).insertionSort (argsortRel ds)

/-- `NumpyIndex.search` (api/indexing.py): distance of the query to every
row, `np.argsort(dists)[:k]`, then the `(index, distance)` pairs in that
order.  (The route layer zips the returned `I` and `D` arrays back into
id/distance records, so the model returns the pairs directly.) -/
def numpySearch (vectors : List (List Int)) (q : List Int) (k : Nat) :
    List (Int × Int) :=
  let dists := vectors.map (fun v => sqDist q v)
  ((argsort dists).take k).map (fun (i : Nat) => ((i : Int), dists.getD i 0))

/-- The fields of `DatasetContext` (api/models.py) that the search paths
read: `image_paths` and the embedding matrix.  The context's index is
`build_index(embeddings)`, which is `NumpyIndex(embeddings)` when faiss is
absent (api/indexing.py), so full searches below go through `numpySearch`
on `embeddings`. -/
structure DatasetContext where
  image_paths : List String
  embeddings : List (List Int)

/-- `k = max(1, min(k, n))` as in `_search_with_ids`. -/
def clampK (k : Int) (n : Nat) : Int := max 1 (min k (n : Int))

/-- `_search_with_ids` (api/routes_dataset_scoped.py).  With a truthy
`image_ids` list: keep in-range ids in caller order, return `[]` when none
survive, otherwise clamp `k` to the subset size, compute distances against
the subset rows only, argsort, and map positions back to the original ids.
Otherwise: clamp `k` to the row count and search the full index. -/
def search_with_ids (ctx : DatasetContext) (query_vec : List Int) (k : Int)
    (image_ids : Option (List Int)) : List (Int × Int) :=
  match image_ids with
  | some ids =>
    if ids = [] then
      numpySearch ctx.embeddings query_vec (clampK k ctx.image_paths.length).toNat
    else
      let valid_ids := ids.filter (fun i => decide (0 ≤ i ∧ i < (ctx.image_paths.length : Int)))
      if valid_ids = [] then []
      else
        let kc := clampK k valid_ids.length
        let subset := valid_ids.map (fun i => ctx.embeddings.getD i.toNat [])
        let dists := subset.map (fun v => sqDist query_vec v)
        ((argsort dists).take kc.toNat).map
          (fun j => (valid_ids.getD j 0, dists.getD j 0))
  | none =>
      numpySearch ctx.embeddings query_vec (clampK k ctx.image_paths.length).toNat

/-- Post-hoc filtering of a full-search result to a subset of ids, as in the
subset-equivalence property: keep exactly the result entries whose id lies
in `S`, preserving order. -/
def posthocFilter (S : List Int) (res : List (Int × Int)) : List (Int × Int) :=
  res.filter (fun p => S.contains p.1)

/-- The full-index search under the library's argsort contract: `res` is an
admissible result of `NumpyIndex.search` as invoked by `_search_with_ids`
with no id subset (`k` clamped to `[1, rowCount]`) iff it arises from some
argsort outcome admitted by `npArgsortSpec`.  The executable
`search_with_ids ctx q k none` realizes one such outcome. -/
def search_full_rel (ctx : DatasetContext) (query_vec : List Int) (k : Int)
    (res : List (Int × Int)) : Prop :=
  ∃ order : List Nat,
    npArgsortSpec (ctx.embeddings.map (fun v => sqDist query_vec v)) order ∧
    res = (order.take (clampK k ctx.image_paths.length).toNat).map
      (fun (i : Nat) => ((i : Int),
        (ctx.embeddings.map (fun v => sqDist query_vec v)).getD i 0))

/-! ## Context cache (`api/context_cache.py`)

`OrderedDict` is modelled as a list of key-value pairs, front = oldest
(least recently used), back = newest.  The claims settled here concern the
sequential (functional) behaviour of `ContextCache.get`; its locking is a
concurrency property and is treated separately. -/

/-- `OrderedDict.get(key)`. -/
def odLookup (l : List (String × α)) (key : String) : Option α :=
  match l.find? (fun p => p.1 == key) with
  | some p => some p.2
  | none => none

/-- `OrderedDict.move_to_end(key)`: the (unique) entry for `key` is moved to
the back; other entries keep their order.  No-op when the key is absent. -/
def moveToEnd (l : List (String × α)) (key : String) : List (String × α) :=
  match odLookup l key with
  | some v => l.filter (fun p => !(p.1 == key)) ++ [(key, v)]
  | none => l

/-- `while len(self._cache) > self._max_size: self._cache.popitem(last=False)`
— drop entries from the front (least recently used) while the size exceeds
the capacity. -/
def evictLoop (max_size : Nat) (l : List (String × α)) : List (String × α) :=
  if max_size < l.length then evictLoop max_size l.tail else l
termination_by l.length
decreasing_by
  cases l with
  | nil => simp at *
  | cons x xs => simp

/-- `ContextCache` (api/context_cache.py): bounded LRU store of dataset
contexts. -/
structure ContextCache (α : Type) where
  max_size : Nat
  cache : List (String × α)
deriving DecidableEq

/-- `ContextCache.get(dataset_id, builder)`, sequential semantics.  Returns
the context, the new cache state, and whether `builder` was invoked.  On a
hit the entry is promoted to most-recently-used and `builder` is not called.
On a miss, `builder(dataset_id)` runs, the result is inserted at the back
(`self._cache[dataset_id] = ctx` appends for an absent key, and the
following `move_to_end` keeps it at the back), then least-recently-used
entries are evicted while the size exceeds `max_size`.  (The double-checked
lookup under the build lock re-misses in the sequential model.) -/
def cacheGet (c : ContextCache α) (dataset_id : String) (builder : String → α) :
    α × ContextCache α × Bool :=
  match odLookup c.cache dataset_id with
  | some ctx => (ctx, { c with cache := moveToEnd c.cache dataset_id }, false)
  | none =>
    let ctx := builder dataset_id
    (ctx, { c with cache := evictLoop c.max_size (c.cache ++ [(dataset_id, ctx)]) }, true)

/-- `ContextCache.invalidate(dataset_id)`: unconditional removal. -/
def cacheInvalidate (c : ContextCache α) (dataset_id : String) : ContextCache α :=
  { c with cache := c.cache.filter (fun p => !(p.1 == dataset_id)) }

/-! ## Embedding archive cache (`api/indexing.py`, `api/context.py`) -/

/-- `load_cache` (api/indexing.py): the persisted embedding archive is
modelled as `Option (stored identifier strings × embedding matrix)`; a
missing file yields `(None, None)`, otherwise both the stored path strings
and the embeddings are returned. -/
def load_cache (disk : Option (List String × List (List Int))) :
    Option (List String) × Option (List (List Int)) :=
  match disk with
  | none => (none, none)
  | some (ps, emb) => (some ps, some emb)

/-- The embedding-cache decision of `build_context` (api/context.py):
`if cached_paths == [str(p) for p in image_paths] and embeddings is not
None:` reuse the archive, else call `clip_service.embed_images` on the full
current path list and persist.  Image paths are modelled as their strings;
the external embedding model is the parameter `embed_images`.  Returns the
embeddings and whether the model was invoked. -/
def loadOrBuildEmbeddings (disk : Option (List String × List (List Int)))
    (image_paths : List String) (embed_images : List String → List (List Int)) :
    List (List Int) × Bool :=
  match load_cache disk with
  | (some cached_paths, some embeddings) =>
    if cached_paths = image_paths then (embeddings, false)
    else (embed_images image_paths, true)
  | _ => (embed_images image_paths, true)

/-! ## Persistence of the embedding archive (`api/indexing.py`) -/

/-- Filesystem operations relevant to archive persistence. -/
inductive FsOp
  | mkdirParents (dir : String)
  | writeFile (path : String)
  | renameFile (src dst : String)
deriving DecidableEq

/-- The state of one path on disk. -/
inductive FileState
  | absent
  | truncated
  | complete
deriving DecidableEq

/-- `save_cache` (api/indexing.py):
`cache_file.parent.mkdir(parents=True, exist_ok=True)` followed by
`np.savez_compressed(cache_file, embeddings=..., paths=...)` — a single
direct write to the final cache path.  There is no temporary file and no
rename. -/
def save_cache_ops (parent cache_file : String) : List FsOp :=
  [FsOp.mkdirParents parent, FsOp.writeFile cache_file]

/-- Effect of one completed filesystem operation on per-path states.
A completed write leaves a complete file; a rename moves the source's
state to the destination. -/
def applyFsOp (st : String → FileState) : FsOp → String → FileState
  | FsOp.mkdirParents _ => st
  | FsOp.writeFile p => fun q => if q = p then FileState.complete else st q
  | FsOp.renameFile src dst => fun q =>
      if q = dst then st src else if q = src then FileState.absent else st q

/-- Run a list of filesystem operations to completion. -/
def runFsOps (ops : List FsOp) (st : String → FileState) : String → FileState :=
  ops.foldl applyFsOp st

/-- Crash in the middle of operation `i`: the operations before `i` have
completed; if the interrupted operation is a write, the target may be left
truncated (rename and mkdir are atomic). -/
def crashDuring (ops : List FsOp) (i : Nat) (st : String → FileState) :
    String → FileState :=
  let st₂ := runFsOps (ops.take i) st
  match ops.getD i (FsOp.mkdirParents "") with
  | FsOp.writeFile p => fun q => if q = p then FileState.truncated else st₂ q
  | _ => st₂

/-- Write-then-rename (or equivalent) atomicity of an operation sequence
with respect to a target path: the target is never written directly, and it
is only ever produced whole by a rename. -/
def atomicReplace (ops : List FsOp) (target : String) : Bool :=
  !ops.contains (FsOp.writeFile target) &&
    ops.any (fun op => match op with
      | FsOp.renameFile _ dst => dst = target
      | _ => false)

/-! ## Job pipeline progress plumbing (`api/jobs.py`, `api/context.py`,
`api/clip_service.py`) -/

/-- The parameters of `build_context` (api/context.py):
`def build_context(cfg: DatasetConfig) -> DatasetContext:` — a single
parameter, no `progress_cb` and no `**kwargs`. -/
def build_context_param_names : List String := ["cfg"]

/-- The keyword arguments `process_uploaded_dataset` passes to
`build_context` (api/jobs.py:
`ctx = context.build_context(cfg, progress_cb=_embedding_progress)`). -/
def jobs_build_context_kwargs : List String := ["progress_cb"]

/-- Python call semantics: a call raises `TypeError` unless every keyword
argument names a parameter of the callee. -/
def kwargsAccepted (param_names kwargs : List String) : Bool :=
  kwargs.all (fun w => param_names.contains w)

/-- Stages of the job pipeline (api/jobs.py). -/
inductive JobStage
  | queued | thumbnails | indexing | embeddings | atlas | ready | error
deriving DecidableEq

/-- The embeddings stage of `process_uploaded_dataset` (api/jobs.py): the
stage performs the `context.build_context(cfg, progress_cb=...)` call; the
surrounding `except Exception` handler sets the job stage to `error` when
the call raises. -/
def embeddings_stage_outcome : JobStage :=
  if kwargsAccepted build_context_param_names jobs_build_context_kwargs then
    JobStage.atlas
  else JobStage.error

/-- The batch starts of `embed_images` (api/clip_service.py):
`for i in range(0, len(paths), batch_size)` with `batch_size = 32`. -/
def embed_images_batch_starts (total : Nat) : List Nat :=
  (List.range total).filter (fun i => i % 32 == 0)

/-- The `(done, total)` arguments `embed_images` passes to `progress_cb`
after each batch, when a callback is supplied:
`done = min(i + len(batch_paths), total)`. -/
def embed_images_progress_calls (total : Nat) : List (Nat × Nat) :=
  (embed_images_batch_starts total).map (fun i => (min (i + 32) total, total))

/-! ## JSON values and the layout-cache key (`api/indexing.py`,
`api/routes_dataset_scoped.py`) -/

/-- JSON values as sent in request bodies and serialized into the layout
cache key.  Numbers are modelled as integers (floating-point parameters are
outside this model); objects are association lists. -/
inductive Json
  | jnull
  | jbool (b : Bool)
  | jnum (n : Int)
  | jstr (s : String)
  | jarr (xs : List Json)
  | jobj (kvs : List (String × Json))

/-- Decimal digit characters. -/
def digitChar (n : Nat) : Char :=
  match n with
  | 0 => '0' | 1 => '1' | 2 => '2' | 3 => '3' | 4 => '4'
  | 5 => '5' | 6 => '6' | 7 => '7' | 8 => '8' | _ => '9'

def digitVal (c : Char) : Nat := c.toNat - 48

/-- Decimal rendering of a natural number, most significant digit first
(the digits of Python's `repr`/`json.dumps` for a non-negative int). -/
def natDigits (n : Nat) : List Char :=
  if n < 10 then [digitChar n]
  else natDigits (n / 10) ++ [digitChar (n % 10)]
termination_by n
decreasing_by
  exact Nat.div_lt_self (by omega) (by omega)

/-- Decimal rendering of an integer as produced by `json.dumps`. -/
def intDigits (n : Int) : List Char :=
  if n < 0 then '-' :: natDigits n.natAbs else natDigits n.toNat

/-- Value of a digit string (used to invert `natDigits`). -/
def digitsToNat (cs : List Char) : Nat := cs.foldl (fun a c => 10 * a + digitVal c) 0

/-- Python `str.strip()`: remove leading and trailing whitespace. -/
def pyStrip (s : String) : String :=
  String.mk (((s.data.dropWhile Char.isWhitespace).reverse.dropWhile
    Char.isWhitespace).reverse)

/-- Python `int(s)` on a string: optional surrounding whitespace, optional
sign, then decimal digits; anything else raises (None here).  (Underscore
digit separators are outside this model.) -/
def parseIntString (s : String) : Option Int :=
  match (pyStrip s).data with
  | '-' :: rest =>
    if rest ≠ [] ∧ rest.all Char.isDigit then some (-(digitsToNat rest : Int)) else none
  | '+' :: rest =>
    if rest ≠ [] ∧ rest.all Char.isDigit then some ((digitsToNat rest : Int)) else none
  | rest =>
    if rest ≠ [] ∧ rest.all Char.isDigit then some ((digitsToNat rest : Int)) else none

/-- Python `int(val)` on a JSON scalar as used in `_parse_image_ids`:
ints pass through, booleans coerce (`True` is `1`), numeric strings parse,
everything else raises (`none`). -/
def intCoerce : Json → Option Int
  | Json.jnum n => some n
  | Json.jbool b => some (if b then 1 else 0)
  | Json.jstr s => parseIntString s
  | _ => none

/-- The list branch of `_parse_image_ids`: coerce each entry with `int()`,
silently skipping failures; an empty result becomes `None`. -/
def coerceIds (xs : List Json) : Option (List Int) :=
  let ids := xs.filterMap intCoerce
  if ids = [] then none else some ids

/-- `_parse_image_ids` (api/routes_dataset_scoped.py).  `raw` is the JSON
value of the `image_ids` field (`none` both for an absent field and JSON
null, as `data.get` returns Python `None` for both).  `loads` is the
stdlib `json.loads` collaborator (`none` = parse error); on a parse error a
string is split on whitespace/comma runs instead.  Note that no input is
ever rejected: malformed entries are skipped and a fully-unusable value
yields `none`, i.e. no subset restriction at all. -/
def parse_image_ids (loads : String → Option Json) : Option Json → Option (List Int)
  | none => none
  | some Json.jnull => none
  | some (Json.jarr xs) => coerceIds xs
  | some (Json.jstr s) =>
    let t := pyStrip s
    if t = "" then none
    else
      match loads t with
      | some (Json.jarr xs) => coerceIds xs
      | some j => coerceIds [j]
      | none =>
        coerceIds (((t.split (fun c => c.isWhitespace || c = ',')).filter
          (fun part => part ≠ "")).map Json.jstr)
  | some _ => none

/-- Externally visible effects of the search route, in order. -/
inductive Eff
  | contextCacheGet
  | embedTextCall
  | searchRun
deriving DecidableEq

/-- Route responses: a JSON result list or a client error status. -/
inductive Resp
  | ok (results : List (Int × Int))
  | clientError (status : Nat) (msg : String)
deriving DecidableEq

/-- The JSON body of a POST search request.  The query is modelled as an
optional string (a non-string query raises inside `.strip()`, outside this
model). -/
structure SearchBody where
  query : Option String
  top_k : Option Json
  image_ids : Option Json

/-- The POST branch of the `search` route (api/routes_dataset_scoped.py).
`ctx = _get_context(dataset_id)` runs first — the context cache is
consulted before any validation — then `top_k` is coerced with `int()`
(client error 400 on failure), the query checked for non-emptiness
(client error 400), the id subset parsed leniently, and the search run.
`embed_text` is the external CLIP collaborator. -/
def search_post (ctx : DatasetContext) (embed_text : String → List Int)
    (loads : String → Option Json) (body : SearchBody) : List Eff × Resp :=
  let effs := [Eff.contextCacheGet]
  match intCoerce (body.top_k.getD (Json.jnum 100)) with
  | none => (effs, Resp.clientError 400 "top_k must be an integer")
  | some k =>
    let query := pyStrip (body.query.getD "")
    if query = "" then (effs, Resp.clientError 400 "Missing query")
    else
      (effs ++ [Eff.embedTextCall, Eff.searchRun],
        Resp.ok (search_with_ids ctx (embed_text query) k
          (parse_image_ids loads body.image_ids)))

/-! ## Canonical JSON serialization for the layout-cache key -/

def hexDigitChar (n : Nat) : Char :=
  match n with
  | 0 => '0' | 1 => '1' | 2 => '2' | 3 => '3' | 4 => '4' | 5 => '5' | 6 => '6'
  | 7 => '7' | 8 => '8' | 9 => '9' | 10 => 'a' | 11 => 'b' | 12 => 'c'
  | 13 => 'd' | 14 => 'e' | _ => 'f'

/-- JSON string escaping as `json.dumps(..., ensure_ascii=True)` performs
it: quote and backslash get two-character escapes, common control
characters get short escapes, remaining control characters and all
non-ASCII characters become `\uXXXX` (characters beyond the basic
multilingual plane use surrogate pairs in CPython, outside this model). -/
def escapeChar (c : Char) : List Char :=
  if c = '"' then ['\\', '"']
  else if c = '\\' then ['\\', '\\']
  else if c = '\n' then ['\\', 'n']
  else if c = '\t' then ['\\', 't']
  else if c = '\r' then ['\\', 'r']
  else if c.toNat = 8 then ['\\', 'b']
  else if c.toNat = 12 then ['\\', 'f']
  else if c.toNat < 32 ∨ 127 ≤ c.toNat then
    ['\\', 'u', hexDigitChar (c.toNat / 4096 % 16), hexDigitChar (c.toNat / 256 % 16),
      hexDigitChar (c.toNat / 16 % 16), hexDigitChar (c.toNat % 16)]
  else [c]

/-- A JSON string literal. -/
def encString (s : String) : List Char :=
  '"' :: (s.data.map escapeChar).flatten ++ ['"']

mutual
/-- `json.dumps(..., sort_keys=True, separators=(",", ":"),
ensure_ascii=True)`.  Objects are encoded in stored key order; the
canonical (sorted-keys) form is expressed by hypotheses on the inputs. -/
def encVal : Json → List Char
  | Json.jnull => ['n', 'u', 'l', 'l']
  | Json.jbool true => ['t', 'r', 'u', 'e']
  | Json.jbool false => ['f', 'a', 'l', 's', 'e']
  | Json.jnum n => intDigits n
  | Json.jstr s => encString s
  | Json.jarr xs => '[' :: encItems xs ++ [']']
  | Json.jobj kvs => '{' :: encMembers kvs ++ ['}']
def encItems : List Json → List Char
  | [] => []
  | [x] => encVal x
  | x :: xs => encVal x ++ ',' :: encItems xs
def encMembers : List (String × Json) → List Char
  | [] => []
  | [kv] => encString kv.1 ++ ':' :: encVal kv.2
  | kv :: kvs => encString kv.1 ++ ':' :: encVal kv.2 ++ ',' :: encMembers kvs
end

/-- The part of the serialized payload before the `params` object:
`{"image_ids":[...],"params":` (keys sorted by `sort_keys=True`:
image_ids < params < texts < v). -/
def payloadPre (image_ids : List Int) : List Char :=
  '{' :: encString "image_ids" ++ ':' :: encVal (Json.jarr (image_ids.map Json.jnum)) ++
    ',' :: encString "params" ++ [':']

/-- The part of the serialized payload after the `params` object:
`,"texts":[...],"v":N}`. -/
def payloadSuf (texts : List String) (version : Int) : List Char :=
  ',' :: encString "texts" ++ ':' :: encVal (Json.jarr (texts.map Json.jstr)) ++
    ',' :: encString "v" ++ ':' :: intDigits version ++ ['}']

/-- The canonical serialization of `umap_cache_key`'s payload dict
`{"image_ids": ids, "texts": texts, "params": params, "v": version}`. -/
def encPayload (image_ids : List Int) (texts : List String)
    (params : List (String × Json)) (version : Int) : List Char :=
  encVal (Json.jobj [("image_ids", Json.jarr (image_ids.map Json.jnum)),
                     ("params", Json.jobj params),
                     ("texts", Json.jarr (texts.map Json.jstr)),
                     ("v", Json.jnum version)])

/-- `umap_cache_key` (api/indexing.py): `"post:"` plus the hex digest of
the canonical JSON payload.  SHA-256 is an external primitive, the
parameter `h`. -/
def umap_cache_key (h : List Char → String) (image_ids : List Int)
    (texts : List String) (params : List (String × Json)) (version : Int) : String :=
  "post:" ++ h (encPayload image_ids texts params version)

/-- The cache consultation of the POST `get_umap` route
(api/routes_dataset_scoped.py): on a key hit return the stored response
verbatim; on a miss compute, store under the key, and return the computed
response.  Returns (response, new cache, hit?). -/
def get_umap_step (cache : List (String × R)) (key : String) (compute : R) :
    R × List (String × R) × Bool :=
  match odLookup cache key with
  | some r => (r, cache, true)
  | none => (compute, cache ++ [(key, compute)], false)

/-- Characters that can follow a serialized object member value. -/
def stopChar (c : Char) : Bool := c = ',' || c = '}'

/-- A printable ASCII character needing no JSON escape. -/
def plainChar (c : Char) : Bool :=
  decide (32 ≤ c.toNat) && decide (c.toNat ≤ 126) && !(c == '"') && !(c == '\\')

def plainString (s : String) : Bool := s.data.all plainChar

/-- A scalar JSON value whose serialization needs no escapes. -/
def scalarPlain : Json → Bool
  | Json.jnull => true
  | Json.jbool _ => true
  | Json.jnum _ => true
  | Json.jstr s => plainString s
  | _ => false

/-- Strict lexicographic order on character lists (Python string `<` for
ASCII strings). -/
def lexLt : List Char → List Char → Bool
  | [], [] => false
  | [], _ :: _ => true
  | _ :: _, [] => false
  | a :: as, b :: bs => if a < b then true else if a = b then lexLt as bs else false

/-- Keys strictly sorted, hence distinct. -/
def keysSortedStrict : List String → Bool
  | [] => true
  | [_] => true
  | a :: b :: t => lexLt a.data b.data && keysSortedStrict (b :: t)

/-- A `params` dict in canonical form: flat, scalar plain values, keys
plain, sorted, and distinct (the shape the layout route's hyperparameter
dicts take; `sort_keys=True` makes the sorted association list the
canonical representation of the dict). -/
def flatPlainParams (kvs : List (String × Json)) : Bool :=
  kvs.all (fun kv => plainString kv.1 && scalarPlain kv.2) &&
    keysSortedStrict (kvs.map Prod.fst)

/-! ## Generic list lemmas -/

lemma filter_take_eq_take_filter (p : α → Bool) (l : List α) (n : Nat) :
    (l.take n).filter p = (l.filter p).take ((l.take n).filter p).length := by
  induction l generalizing n with
  | nil => simp
  | cons x xs ih =>
    cases n with
    | zero => simp
    | succ m =>
      by_cases hx : p x
      · simp only [List.take_succ_cons, List.filter_cons, hx, if_pos, List.length_cons]
        simp only [List.take_succ_cons, List.cons.injEq, true_and]
        exact ih m
      · simp only [List.take_succ_cons, List.filter_cons, hx]
        simp only [Bool.false_eq_true, if_neg, not_false_iff]
        exact ih m

lemma eq_of_perm_of_pairwise_lt {f : α → Int} {l₁ l₂ : List α}
    (hp : l₁.Perm l₂) (h₁ : l₁.Pairwise (fun a b => f a < f b))
    (h₂ : l₂.Pairwise (fun a b => f a < f b)) : l₁ = l₂ := by
  letI : IsAntisymm α (fun a b => f a < f b) :=
    ⟨fun a b hab hba => absurd (hab.trans hba) (lt_irrefl _)⟩
  exact List.eq_of_perm_of_sorted hp h₁ h₂

lemma map_getD_range (L : List α) (d : α) :
    (List.range L.length).map (fun i => L.getD i d) = L := by
  apply List.ext_getElem
  · simp
  · intro n h₁ h₂
    simp only [List.getElem_map, List.getElem_range]
    exact List.getD_eq_getElem L d h₂

lemma getD_map_of_lt (f : α → β) (l : List α) {i : Nat} (h : i < l.length)
    (d : α) (d₂ : β) : (l.map f).getD i d₂ = f (l.getD i d) := by
  rw [List.getD_eq_getElem _ _ (by simpa using h), List.getD_eq_getElem _ _ h,
    List.getElem_map]

/-! ## argsort lemmas -/

lemma argsort_perm (ds : List Int) : (argsort ds).Perm (List.range ds.length) :=
  List.perm_insertionSort _ _

lemma argsort_length (ds : List Int) : (argsort ds).length = ds.length := by
  simpa using (argsort_perm ds).length_eq

lemma argsort_nodup (ds : List Int) : (argsort ds).Nodup :=
  (argsort_perm ds).nodup_iff.mpr (List.nodup_range _)

lemma argsort_mem_lt {ds : List Int} {i : Nat} (h : i ∈ argsort ds) :
    i < ds.length := by
  have := (argsort_perm ds).mem_iff.mp h
  simpa [List.mem_range] using this

lemma argsort_sorted (ds : List Int) :
    List.Sorted (argsortRel ds) (argsort ds) :=
  List.sorted_insertionSort _ _

lemma argsort_pairwise_strict (ds : List Int) :
    (argsort ds).Pairwise
      (fun i j => ds.getD i 0 < ds.getD j 0 ∨ (ds.getD i 0 = ds.getD j 0 ∧ i < j)) := by
  have hs : (argsort ds).Pairwise (argsortRel ds) := argsort_sorted ds
  have hn : (argsort ds).Pairwise (fun i j => i ≠ j) := argsort_nodup ds
  refine (hs.and hn).imp ?_
  rintro i j ⟨hrel, hne⟩
  rcases hrel with h | ⟨he, hle⟩
  · exact Or.inl h
  · exact Or.inr ⟨he, lt_of_le_of_ne hle hne⟩

/-! ## C7: full search — count, no duplicates, sorted -/

lemma numpySearch_eq (vectors : List (List Int)) (q : List Int) (k : Nat) :
    numpySearch vectors q k =
      ((argsort (vectors.map (fun v => sqDist q v))).take k).map
        (fun (i : Nat) => ((i : Int), (vectors.map (fun v => sqDist q v)).getD i 0)) := rfl

/-- C7 as stated is false under the library's contract: `np.argsort`
(default unstable quicksort, and likewise faiss `IndexFlatL2`) does not
specify the order of tied distances, so over two identical rows the
admissible outcome that lists row 1 before row 0 yields a search result
whose ties are NOT broken by ascending original row index. -/
theorem full_search_tiebreak_counterexample :
    search_full_rel ⟨["a", "b"], [[0], [0]]⟩ [0] 2 [((1 : Int), (0 : Int)), (0, 0)] ∧
    ¬ List.Pairwise (fun p p₂ => p.2 < p₂.2 ∨ (p.2 = p₂.2 ∧ p.1 < p₂.1))
      [((1 : Int), (0 : Int)), (0, 0)] := by
  constructor
  · exact ⟨[1, 0], by decide⟩
  · decide

/-- C7 amended.  For every query vector and requested count `k` valid for
the row count (`1 ≤ k ≤ N`), every admissible result of the full-index
search (`k` clamped to `[1, rowCount]`, any argsort outcome the library's
contract allows) has exactly `min k N` entries, no duplicate ids, is
sorted ascending (non-decreasing) by squared-Euclidean distance, and every
returned pair is a genuine (row index, distance) pair — the order among
tied distances being unspecified.  The executable model
(`search_with_ids ctx q k none`, ascending-position tie order) realizes
one admissible result. -/
theorem full_search_count_nodup_sorted_amended (ctx : DatasetContext) (q : List Int)
    (k : Int) (hLen : ctx.image_paths.length = ctx.embeddings.length)
    (hk1 : 1 ≤ k) (hk2 : k ≤ (ctx.embeddings.length : Int)) :
    search_full_rel ctx q k (search_with_ids ctx q k none) ∧
    ∀ res, search_full_rel ctx q k res →
      res.length = min k.toNat ctx.embeddings.length ∧
      (res.map Prod.fst).Nodup ∧
      res.Pairwise (fun p p₂ => p.2 ≤ p₂.2) ∧
      ∀ p ∈ res, ∃ i : Nat, p.1 = (i : Int) ∧ i < ctx.embeddings.length ∧
        p.2 = sqDist q (ctx.embeddings.getD i []) := by
  have hclamp : clampK k ctx.image_paths.length = k := by
    unfold clampK
    rw [hLen]
    omega
  constructor
  · refine ⟨argsort (ctx.embeddings.map (fun v => sqDist q v)),
      ⟨argsort_perm _, ?_⟩, rfl⟩
    refine (argsort_sorted (ctx.embeddings.map (fun v => sqDist q v))).imp ?_
    intro i j hij
    rcases hij with h | ⟨he, -⟩
    · exact le_of_lt h
    · exact le_of_eq he
  · intro res hres
    obtain ⟨order, ⟨hperm, hsorted⟩, hres⟩ := hres
    set dists := ctx.embeddings.map (fun v => sqDist q v) with hdists
    have hdlen : dists.length = ctx.embeddings.length := by simp [hdists]
    have holen : order.length = ctx.embeddings.length := by
      rw [hperm.length_eq, List.length_range, hdlen]
    have hmem : ∀ i ∈ order, i < ctx.embeddings.length := by
      intro i hi
      have := hperm.subset hi
      rwa [List.mem_range, hdlen] at this
    subst hres
    refine ⟨?_, ?_, ?_, ?_⟩
    · rw [List.length_map, List.length_take, holen, hclamp]
    · rw [List.map_map]
      have hcomp : (Prod.fst ∘ fun (i : Nat) => ((i : Int), dists.getD i 0)) =
          (fun (i : Nat) => (i : Int)) := rfl
      rw [hcomp]
      refine List.Nodup.map (fun a b hab => by exact_mod_cast hab) ?_
      exact (List.take_sublist _ _).nodup (hperm.nodup_iff.mpr (List.nodup_range _))
    · rw [List.pairwise_map]
      exact (hsorted.sublist (List.take_sublist _ _)).imp (fun hij => hij)
    · intro p hp
      rcases List.mem_map.mp hp with ⟨i, hi, rfl⟩
      have hiN : i < ctx.embeddings.length := hmem i (List.mem_of_mem_take hi)
      refine ⟨i, rfl, hiN, ?_⟩
      simp only [hdists]
      rw [getD_map_of_lt (fun v => sqDist q v) ctx.embeddings hiN []]

/-- Witness for the amended C7: over rows `[[0]], [[1]]` with `k = 2`, the
conclusions hold at the concrete admissible result `[(0, 0), (1, 1)]`
(argsort outcome `[0, 1]`). -/
theorem full_search_count_nodup_sorted_amended_witness :
    [((0 : Int), (0 : Int)), (1, 1)].length =
      min (Int.toNat 2) (List.length [[0], [1]]) ∧
    ([((0 : Int), (0 : Int)), (1, 1)].map Prod.fst).Nodup ∧
    List.Pairwise (fun p p₂ => p.2 ≤ p₂.2) [((0 : Int), (0 : Int)), (1, 1)] ∧
    ∀ p ∈ [((0 : Int), (0 : Int)), (1, 1)], ∃ i : Nat,
      p.1 = (i : Int) ∧ i < List.length [[0], [1]] ∧
      p.2 = sqDist [0] (List.getD [[0], [1]] i []) :=
  (full_search_count_nodup_sorted_amended ⟨["a", "b"], [[0], [1]]⟩ [0] 2
      (by decide) (by decide) (by decide)).2
    [((0 : Int), (0 : Int)), (1, 1)] ⟨[0, 1], by decide⟩

/-! ## C2: subset search vs post-hoc filtered full search -/

lemma contains_iff_mem [BEq α] [LawfulBEq α] (l : List α) (a : α) :
    l.contains a = true ↔ a ∈ l := by
  simp [List.contains, List.elem_iff]

/-- C2 as stated is false: over rows `[[0]], [[3]]` with query `[0]` and
subset `S = [0, 1]` (so `|S| = 2 ≥ k = 1`), the full search with `k = 1`
filtered post-hoc to `S` is `[(0, 0)]`, but the subset search with
`k' = 2 ≥ 1` (the filtered length) returns `[(0, 0), (1, 9)]` — the ordered
pair lists differ. -/
theorem subset_search_posthoc_counterexample :
    posthocFilter [0, 1] (search_with_ids ⟨["a", "b"], [[0], [3]]⟩ [0] 1 none) ≠
      search_with_ids ⟨["a", "b"], [[0], [3]]⟩ [0] 2 (some [0, 1]) := by decide

/-- C2 amended.  With pairwise-distinct distances (no ties) and a nonempty
subset `S` of distinct valid ids, the full-index search filtered post-hoc to
`S` equals the first `m` entries of the subset search for every requested
count `k' ≥ m`, where `m` is the filtered result length.  (As literally
stated — full equality of the two lists — the claim fails: the subset search
returns `min(max(1, k'), |S|)` pairs, which can exceed `m`, and tied
distances can be ordered differently by the two code paths; see the
counterexample.) -/
theorem subset_search_posthoc_equiv_amended (ctx : DatasetContext) (q : List Int)
    (S : List Int) (k kp : Int)
    (hLen : ctx.image_paths.length = ctx.embeddings.length)
    (hS : ∀ i ∈ S, 0 ≤ i ∧ i < (ctx.image_paths.length : Int))
    (hnd : S.Nodup) (hne : S ≠ [])
    (_hkS : k ≤ (S.length : Int))
    (hdist : ∀ i : Nat, i < ctx.embeddings.length → ∀ j : Nat, j < ctx.embeddings.length →
      i ≠ j → sqDist q (ctx.embeddings.getD i []) ≠ sqDist q (ctx.embeddings.getD j []))
    (hkp : ((posthocFilter S (search_with_ids ctx q k none)).length : Int) ≤ kp) :
    posthocFilter S (search_with_ids ctx q k none) =
      (search_with_ids ctx q kp (some S)).take
        (posthocFilter S (search_with_ids ctx q k none)).length := by
  classical
  have hvalid : S.filter (fun i => decide (0 ≤ i ∧ i < (ctx.image_paths.length : Int))) = S :=
    List.filter_eq_self.mpr (fun a ha => decide_eq_true (hS a ha))
  have hsub : search_with_ids ctx q kp (some S) =
      ((argsort ((S.map (fun i => ctx.embeddings.getD i.toNat [])).map
          (fun v => sqDist q v))).take (clampK kp S.length).toNat).map
        (fun j => (S.getD j 0,
          ((S.map (fun i => ctx.embeddings.getD i.toNat [])).map
            (fun v => sqDist q v)).getD j 0)) := by
    simp only [search_with_ids, hvalid, if_neg hne]
  have hfull : search_with_ids ctx q k none =
      ((argsort (ctx.embeddings.map (fun v => sqDist q v))).take
          (clampK k ctx.image_paths.length).toNat).map
        (fun (i : Nat) => ((i : Int),
          (ctx.embeddings.map (fun v => sqDist q v)).getD i 0)) := rfl
  set dists := ctx.embeddings.map (fun v => sqDist q v) with hdists
  set N := ctx.embeddings.length with hN
  have hdlen : dists.length = N := by rw [hdists, List.length_map]
  set keyI : Int → Int := fun x => dists.getD x.toNat 0 with hkeyI
  set F := argsort dists with hF
  set kc := (clampK k ctx.image_paths.length).toNat with hkc
  set P : Nat → Bool := fun i => S.contains ((i : Int)) with hP
  have hposth : posthocFilter S (search_with_ids ctx q k none) =
      ((F.take kc).filter P).map (fun (i : Nat) => ((i : Int), dists.getD i 0)) := by
    rw [hfull]
    unfold posthocFilter
    rw [List.filter_map]
    rfl
  set G := F.filter P with hG
  set m₀ := ((F.take kc).filter P).length with hm0
  have hstep3 : (F.take kc).filter P = G.take m₀ := filter_take_eq_take_filter P F kc
  -- subset side
  set dsSub := (S.map (fun i => ctx.embeddings.getD i.toNat [])).map
      (fun v => sqDist q v) with hdsSub
  have hdsSubLen : dsSub.length = S.length := by
    rw [hdsSub, List.length_map, List.length_map]
  set kcp := (clampK kp S.length).toNat with hkcp
  set Fp := argsort dsSub with hFp
  have hFpLen : Fp.length = S.length := by rw [hFp, argsort_length, hdsSubLen]
  have hmemFp : ∀ j ∈ Fp, j < S.length := by
    intro j hj
    rw [hFp] at hj
    have := argsort_mem_lt hj
    rwa [hdsSubLen] at this
  have hSmem_toNat : ∀ i ∈ S, i.toNat < N := by
    intro i hi
    rcases hS i hi with ⟨h0, hlt⟩
    rw [hLen] at hlt
    omega
  have hdsSub_eq : dsSub = S.map keyI := by
    rw [hdsSub, List.map_map]
    apply List.map_congr_left
    intro i hi
    simp only [Function.comp, hkeyI]
    rw [hdists]
    exact (getD_map_of_lt (fun v => sqDist q v) ctx.embeddings (hSmem_toNat i hi) [] 0).symm
  set pairI : Int → Int × Int := fun x => (x, keyI x) with hpairI
  set getS : Nat → Int := fun j => S.getD j 0 with hgetS
  set SubIds := Fp.map getS with hSubIds
  have hsub2 : search_with_ids ctx q kp (some S) = (SubIds.take kcp).map pairI := by
    rw [hsub, hSubIds, ← List.map_take, List.map_map]
    apply List.map_congr_left
    intro j hj
    have hjS : j < S.length := hmemFp j (List.mem_of_mem_take hj)
    simp only [Function.comp, hpairI, hgetS]
    have : dsSub.getD j 0 = keyI (S.getD j 0) := by
      rw [hdsSub_eq]
      exact getD_map_of_lt keyI S hjS 0 0
    rw [this]
  have hSubPerm : SubIds.Perm S := by
    have h1 : Fp.Perm (List.range S.length) := by
      rw [hFp]
      have := argsort_perm dsSub
      rwa [hdsSubLen] at this
    have h2 := h1.map getS
    rwa [hgetS, map_getD_range S 0] at h2
  have hkeyInj : ∀ a ∈ S, ∀ b ∈ S, a ≠ b → keyI a ≠ keyI b := by
    intro a ha b hb hab
    have hA := hSmem_toNat a ha
    have hB := hSmem_toNat b hb
    have htn : a.toNat ≠ b.toNat := by
      have h0a := (hS a ha).1
      have h0b := (hS b hb).1
      omega
    have hd := hdist a.toNat hA b.toNat hB htn
    simp only [hkeyI]
    rw [hdists, getD_map_of_lt (fun v => sqDist q v) ctx.embeddings hA [] 0,
      getD_map_of_lt (fun v => sqDist q v) ctx.embeddings hB [] 0]
    exact hd
  have hgetS_mem : ∀ {j : Nat}, j < S.length → getS j ∈ S := by
    intro j hj
    simp only [hgetS]
    rw [List.getD_eq_getElem S 0 hj]
    exact List.getElem_mem _
  have hgetS_inj : ∀ {j₁ j₂ : Nat}, j₁ < S.length → j₂ < S.length → j₁ ≠ j₂ →
      getS j₁ ≠ getS j₂ := by
    intro j₁ j₂ h₁ h₂ hne2 hEq
    simp only [hgetS] at hEq
    rw [List.getD_eq_getElem S 0 h₁, List.getD_eq_getElem S 0 h₂] at hEq
    exact hne2 (hnd.getElem_inj_iff.mp hEq)
  have hSubPW : SubIds.Pairwise (fun a b => keyI a < keyI b) := by
    rw [hSubIds, List.pairwise_map]
    have hstrict : Fp.Pairwise (fun i j =>
        dsSub.getD i 0 < dsSub.getD j 0 ∨ (dsSub.getD i 0 = dsSub.getD j 0 ∧ i < j)) := by
      rw [hFp]; exact argsort_pairwise_strict dsSub
    refine hstrict.imp_of_mem ?_
    intro j₁ j₂ hj₁ hj₂ hrel
    have hj₁S := hmemFp j₁ hj₁
    have hj₂S := hmemFp j₂ hj₂
    have e₁ : dsSub.getD j₁ 0 = keyI (getS j₁) := by
      rw [hdsSub_eq]; exact getD_map_of_lt keyI S hj₁S 0 0
    have e₂ : dsSub.getD j₂ 0 = keyI (getS j₂) := by
      rw [hdsSub_eq]; exact getD_map_of_lt keyI S hj₂S 0 0
    rcases hrel with h | ⟨he, hlt⟩
    · rw [e₁, e₂] at h; exact h
    · exact absurd (by rw [← e₁, ← e₂]; exact he)
        (hkeyInj _ (hgetS_mem hj₁S) _ (hgetS_mem hj₂S)
          (hgetS_inj hj₁S hj₂S (Nat.ne_of_lt hlt)))
  set castG := G.map (fun (i : Nat) => (i : Int)) with hcastG
  have hFnodup : F.Nodup := by rw [hF]; exact argsort_nodup dists
  have hGsub : G.Sublist F := by rw [hG]; exact List.filter_sublist F
  have hGnodup : G.Nodup := hGsub.nodup hFnodup
  have hmemG : ∀ i ∈ G, i < N := by
    intro i hi
    have hiF : i ∈ F := hGsub.subset hi
    rw [hF] at hiF
    have := argsort_mem_lt hiF
    rwa [hdlen] at this
  have hcastPerm : castG.Perm S := by
    have h1 : G.Perm ((List.range N).filter P) := by
      rw [hG, hF]
      have := (argsort_perm dists).filter P
      rwa [hdlen] at this
    have h2 : castG.Perm (((List.range N).filter P).map (fun (i : Nat) => (i : Int))) := by
      rw [hcastG]; exact h1.map _
    have h3 : ((((List.range N).filter P).map (fun (i : Nat) => (i : Int)))).Perm S := by
      rw [List.perm_ext_iff_of_nodup ?_ hnd]
      · intro a
        constructor
        · intro ha
          rcases List.mem_map.mp ha with ⟨i, hi, rfl⟩
          rcases List.mem_filter.mp hi with ⟨_, hiP⟩
          exact (contains_iff_mem S _).mp hiP
        · intro ha
          rcases hS a ha with ⟨h0, _⟩
          refine List.mem_map.mpr ⟨a.toNat, List.mem_filter.mpr ⟨?_, ?_⟩,
            Int.toNat_of_nonneg h0⟩
          · exact List.mem_range.mpr (hSmem_toNat a ha)
          · show S.contains ((a.toNat : Int)) = true
            rw [Int.toNat_of_nonneg h0]
            exact (contains_iff_mem S a).mpr ha
      · exact ((List.nodup_range N).filter P).map
          (fun a b hab => by exact_mod_cast hab)
    exact h2.trans h3
  have hcastPW : castG.Pairwise (fun a b => keyI a < keyI b) := by
    rw [hcastG, List.pairwise_map]
    have hstrictF : F.Pairwise (fun i j =>
        dists.getD i 0 < dists.getD j 0 ∨ (dists.getD i 0 = dists.getD j 0 ∧ i < j)) := by
      rw [hF]; exact argsort_pairwise_strict dists
    have hstrictG := hstrictF.sublist hGsub
    refine hstrictG.imp_of_mem ?_
    intro i j hi hj hrel
    have hiN := hmemG i hi
    have hjN := hmemG j hj
    have e₁ : keyI ((i : Nat) : Int) = dists.getD i 0 := by
      simp only [hkeyI, Int.toNat_ofNat]
    have e₂ : keyI ((j : Nat) : Int) = dists.getD j 0 := by
      simp only [hkeyI, Int.toNat_ofNat]
    rcases hrel with h | ⟨he, hlt⟩
    · rw [e₁, e₂]; exact h
    · exfalso
      apply hdist i hiN j hjN (Nat.ne_of_lt hlt)
      rw [← getD_map_of_lt (fun v => sqDist q v) ctx.embeddings hiN [] 0,
        ← getD_map_of_lt (fun v => sqDist q v) ctx.embeddings hjN [] 0, ← hdists]
      exact he
  have hcastEq : castG = SubIds :=
    eq_of_perm_of_pairwise_lt (hcastPerm.trans hSubPerm.symm) hcastPW hSubPW
  have hm0G : m₀ ≤ G.length := by
    have := congrArg List.length hstep3
    rw [List.length_take] at this
    omega
  have hm0S : m₀ ≤ S.length := by
    have h1 : castG.length = S.length := hcastPerm.length_eq
    have h2 : castG.length = G.length := by rw [hcastG, List.length_map]
    omega
  have hlhsLen : (posthocFilter S (search_with_ids ctx q k none)).length = m₀ := by
    rw [hposth, List.length_map]
  have hm0kcp : m₀ ≤ kcp := by
    rcases Nat.eq_zero_or_pos m₀ with h0 | h1
    · omega
    · rw [hkcp]
      rw [hlhsLen] at hkp
      have hstep : (m₀ : Int) ≤ clampK kp S.length := by
        unfold clampK
        refine le_trans (le_min hkp (by exact_mod_cast hm0S)) (le_max_right 1 _)
      have := Int.toNat_le_toNat hstep
      rwa [Int.toNat_ofNat] at this
  rw [hlhsLen, hposth, hstep3, hsub2, ← List.map_take, List.take_take,
    Nat.min_eq_left hm0kcp, ← hcastEq, hcastG, ← List.map_take, List.map_map]
  apply List.map_congr_left
  intro i hi
  simp only [Function.comp, hpairI, hkeyI, Int.toNat_ofNat]

/-- Witness for the amended C2 at rows `[[0]], [[3]], [[5]]` with subset
`S = [2, 0]`, `k = 2`, `k' = 3`: the filtered full search `[(0, 0)]` is the
`take 1` of the subset search `[(0, 0), (2, 25)]`. -/
theorem subset_search_posthoc_equiv_amended_witness :
    posthocFilter [2, 0] (search_with_ids ⟨["a", "b", "c"], [[0], [3], [5]]⟩ [0] 2 none) =
      (search_with_ids ⟨["a", "b", "c"], [[0], [3], [5]]⟩ [0] 3 (some [2, 0])).take
        (posthocFilter [2, 0]
          (search_with_ids ⟨["a", "b", "c"], [[0], [3], [5]]⟩ [0] 2 none)).length :=
  subset_search_posthoc_equiv_amended ⟨["a", "b", "c"], [[0], [3], [5]]⟩ [0] [2, 0] 2 3
    (by decide) (by decide) (by decide) (by decide) (by decide) (by decide) (by decide)

/-! ## C4: the context cache is LRU with fixed capacity -/

lemma evictLoop_eq_drop (m : Nat) (l : List (String × α)) :
    evictLoop m l = l.drop (l.length - m) := by
  induction l with
  | nil => simp [evictLoop]
  | cons x xs ih =>
    rw [evictLoop]
    by_cases h : m < (x :: xs).length
    · rw [if_pos h, List.tail_cons, ih]
      have hl : (x :: xs).length - m = (xs.length - m) + 1 := by
        simp only [List.length_cons] at h ⊢
        omega
      rw [hl, List.drop_succ_cons]
    · rw [if_neg h]
      have hl : (x :: xs).length - m = 0 := by
        simp only [List.length_cons, not_lt] at h ⊢
        omega
      rw [hl, List.drop_zero]

/-- C4.  The context cache is LRU with fixed capacity: a hit promotes the
entry to most-recently-used (back of the order) and returns it without
invoking the builder; a miss invokes the builder, inserts the new context at
the back, then evicts from the front (least recently used) while the size
exceeds `max_size`; in particular a miss on a full cache evicts exactly the
least-recently-accessed entry. -/
theorem context_cache_lru (c : ContextCache α) (id : String) (builder : String → α) :
    (∀ ctx, odLookup c.cache id = some ctx →
      cacheGet c id builder =
        (ctx, { c with cache := c.cache.filter (fun p => !(p.1 == id)) ++ [(id, ctx)] },
         false)) ∧
    (odLookup c.cache id = none →
      cacheGet c id builder =
        (builder id,
         { c with
            cache := (c.cache ++ [(id, builder id)]).drop ((c.cache.length + 1) - c.max_size) },
         true)) ∧
    (odLookup c.cache id = none →
      (cacheGet c id builder).2.1.cache.length = min (c.cache.length + 1) c.max_size) ∧
    (odLookup c.cache id = none → c.cache.length = c.max_size → 1 ≤ c.max_size →
      (cacheGet c id builder).2.1.cache = c.cache.tail ++ [(id, builder id)]) := by
  have hmiss : odLookup c.cache id = none →
      cacheGet c id builder =
        (builder id,
         { c with
            cache := (c.cache ++ [(id, builder id)]).drop ((c.cache.length + 1) - c.max_size) },
         true) := by
    intro h
    unfold cacheGet
    rw [h]
    simp only
    rw [evictLoop_eq_drop]
    rw [List.length_append, List.length_cons, List.length_nil]
  refine ⟨?_, hmiss, ?_, ?_⟩
  · intro ctx h
    unfold cacheGet
    rw [h]
    unfold moveToEnd
    rw [h]
  · intro h
    rw [hmiss h]
    simp only [List.length_drop, List.length_append, List.length_cons, List.length_nil]
    omega
  · intro h hfull hpos
    rw [hmiss h]
    simp only
    have : c.cache.length + 1 - c.max_size = 1 := by omega
    rw [this]
    cases hc : c.cache with
    | nil =>
      rw [hc] at hfull
      simp at hfull
      omega
    | cons x xs => simp

/-- Witness for C4: a hit on `"a"` promotes it past `"b"` without building,
and a miss on `"c"` with a full 2-entry cache evicts the
least-recently-used `"b"` (after `"a"` was promoted). -/
theorem context_cache_lru_witness :
    cacheGet (⟨2, [("a", 1), ("b", 2)]⟩ : ContextCache Nat) "a" (fun _ => 7) =
      (1, ⟨2, [("b", 2), ("a", 1)]⟩, false) ∧
    cacheGet (⟨2, [("b", 2), ("a", 1)]⟩ : ContextCache Nat) "c" (fun _ => 7) =
      (7, ⟨2, [("a", 1), ("c", 7)]⟩, true) ∧
    (cacheGet (⟨2, [("b", 2), ("a", 1)]⟩ : ContextCache Nat) "c" (fun _ => 7)).2.1.cache =
      [("b", 2), ("a", 1)].tail ++ [("c", 7)] :=
  ⟨((context_cache_lru ⟨2, [("a", 1), ("b", 2)]⟩ "a" (fun _ => 7)).1 1
      (by decide)).trans (by decide),
   ((context_cache_lru ⟨2, [("b", 2), ("a", 1)]⟩ "c" (fun _ => 7)).2.1
      (by decide)).trans (by decide),
   (context_cache_lru ⟨2, [("b", 2), ("a", 1)]⟩ "c" (fun _ => 7)).2.2.2
      (by decide) (by decide) (by decide)⟩

/-! ## C3: embedding cache hit iff identifier sequences match exactly -/

/-- C3.  If the persisted archive's stored identifier sequence equals the
current path list exactly (as strings, in order), the build returns the
cached embeddings unchanged with no model inference; any differing stored
sequence — in particular adding, removing, or reordering a single entry —
forces a full re-embedding of the current list. -/
theorem embedding_cache_exact_match (paths : List String)
    (f : List String → List (List Int)) :
    (∀ emb, loadOrBuildEmbeddings (some (paths, emb)) paths f = (emb, false)) ∧
    (∀ cached emb current, cached ≠ current →
      loadOrBuildEmbeddings (some (cached, emb)) current f = (f current, true)) ∧
    (∀ current, loadOrBuildEmbeddings none current f = (f current, true)) ∧
    (∀ emb i x, i ≤ paths.length →
      loadOrBuildEmbeddings (some (paths, emb)) (paths.insertIdx i x) f =
        (f (paths.insertIdx i x), true)) ∧
    (∀ emb i, i < paths.length →
      loadOrBuildEmbeddings (some (paths, emb)) (paths.eraseIdx i) f =
        (f (paths.eraseIdx i), true)) ∧
    (∀ emb current, current.Perm paths → current ≠ paths →
      loadOrBuildEmbeddings (some (paths, emb)) current f = (f current, true)) := by
  have hstale : ∀ cached emb current, cached ≠ current →
      loadOrBuildEmbeddings (some (cached, emb)) current f = (f current, true) := by
    intro cached emb current h
    simp [loadOrBuildEmbeddings, load_cache, h]
  refine ⟨?_, hstale, ?_, ?_, ?_, ?_⟩
  · intro emb
    simp [loadOrBuildEmbeddings, load_cache]
  · intro current
    simp [loadOrBuildEmbeddings, load_cache]
  · intro emb i x hi
    apply hstale
    intro hEq
    have hlen : (paths.insertIdx i x).length = paths.length + 1 :=
      List.length_insertIdx i paths hi
    rw [← hEq] at hlen
    omega
  · intro emb i hi
    apply hstale
    intro hEq
    have hlen : (paths.eraseIdx i).length =
        if i < paths.length then paths.length - 1 else paths.length :=
      List.length_eraseIdx paths i
    rw [if_pos hi] at hlen
    rw [← hEq] at hlen
    omega
  · intro emb current _ hne
    exact hstale paths emb current (Ne.symm hne)

/-- Witness for C3: a matching archive for `["a", "b"]` is a hit; inserting
`"c"` at position 1 forces a rebuild. -/
theorem embedding_cache_exact_match_witness :
    loadOrBuildEmbeddings (some (["a", "b"], [[1], [2]])) ["a", "b"]
      (fun l => l.map (fun _ => [9])) = ([[1], [2]], false) ∧
    loadOrBuildEmbeddings (some (["a", "b"], [[1], [2]])) (["a", "b"].insertIdx 1 "c")
      (fun l => l.map (fun _ => [9])) =
      ((["a", "b"].insertIdx 1 "c").map (fun _ => [9]), true) :=
  ⟨(embedding_cache_exact_match ["a", "b"] (fun l => l.map (fun _ => [9]))).1 [[1], [2]],
   (embedding_cache_exact_match ["a", "b"] (fun l => l.map (fun _ => [9]))).2.2.2.1
     [[1], [2]] 1 "c" (by decide)⟩

/-! ## C6: archive persistence is not write-then-rename -/

/-- C6 as stated is false: `save_cache` does not persist atomically.  At the
concrete cache path, the operation sequence writes the final path directly
(no write-then-rename), and a crash in the middle of that write leaves a
truncated archive at the path a later load reads. -/
theorem save_cache_not_atomic_counterexample :
    atomicReplace (save_cache_ops "cache" "cache/clip_index.npz")
      "cache/clip_index.npz" = false ∧
    crashDuring (save_cache_ops "cache" "cache/clip_index.npz") 1
      (fun _ => FileState.absent) "cache/clip_index.npz" = FileState.truncated := by
  constructor
  · decide
  · rfl

/-- C6 amended: `save_cache` creates the parent directory and then writes
the archive directly to the final cache path — no temporary file and no
rename — so a crash in the middle of the write can leave a truncated
archive at the cache path; only a completed run leaves a complete one. -/
theorem save_cache_direct_write_amended (parent cache_file : String)
    (st : String → FileState) :
    save_cache_ops parent cache_file =
      [FsOp.mkdirParents parent, FsOp.writeFile cache_file] ∧
    atomicReplace (save_cache_ops parent cache_file) cache_file = false ∧
    crashDuring (save_cache_ops parent cache_file) 1 st cache_file =
      FileState.truncated ∧
    runFsOps (save_cache_ops parent cache_file) st cache_file =
      FileState.complete := by
  refine ⟨rfl, ?_, ?_, ?_⟩
  · simp [atomicReplace, save_cache_ops]
  · simp [crashDuring, save_cache_ops]
  · simp [runFsOps, save_cache_ops, applyFsOp]

/-! ## C5: the job-driven rebuild's progress plumbing -/

/-- C5 evaluated on the code.  `embed_images` does invoke a supplied
callback after every batch with a monotonically non-decreasing done count
out of a fixed total, but the job pipeline's call
`context.build_context(cfg, progress_cb=...)` passes a keyword argument
that `build_context(cfg)` does not accept, so the embeddings stage raises
`TypeError` and the job transitions to `error`: the callback never updates
job state during a rebuild. -/
theorem jobs_progress_plumbing_code_bug :
    kwargsAccepted build_context_param_names jobs_build_context_kwargs = false ∧
    embeddings_stage_outcome = JobStage.error ∧
    ∀ total : Nat, (embed_images_progress_calls total).Pairwise
      (fun p p₂ => p.1 ≤ p₂.1 ∧ p.2 = p₂.2) := by
  refine ⟨by decide, by decide, ?_⟩
  intro total
  unfold embed_images_progress_calls embed_images_batch_starts
  rw [List.pairwise_map]
  have h : (List.range total).Pairwise (· < ·) := List.pairwise_lt_range total
  have h₂ : ((List.range total).filter (fun i => i % 32 == 0)).Pairwise (· < ·) :=
    h.sublist (List.filter_sublist _)
  refine h₂.imp ?_
  intro i j hij
  refine ⟨?_, rfl⟩
  show min (i + 32) total ≤ min (j + 32) total
  omega

/-! ## C10: all-out-of-range subset ids give an empty result -/

/-- C10.  A POST search whose body carries a non-empty list of integer
subset ids, every one out of range (negative or at least the image count),
returns the empty result list: no error is raised and no fallback to an
unrestricted full-index search occurs. -/
theorem search_all_out_of_range_empty (ctx : DatasetContext)
    (embed_text : String → List Int) (loads : String → Option Json)
    (q : String) (tk : Json) (k : Int) (ids : List Int)
    (hq : pyStrip q ≠ "") (htk : intCoerce tk = some k) (hne : ids ≠ [])
    (hrange : ∀ i ∈ ids, i < 0 ∨ (ctx.image_paths.length : Int) ≤ i) :
    search_post ctx embed_text loads
      ⟨some q, some tk, some (Json.jarr (ids.map Json.jnum))⟩ =
      ([Eff.contextCacheGet, Eff.embedTextCall, Eff.searchRun], Resp.ok []) := by
  have hparse : parse_image_ids loads (some (Json.jarr (ids.map Json.jnum))) = some ids := by
    simp only [parse_image_ids, coerceIds, List.filterMap_map]
    have : (intCoerce ∘ Json.jnum) = some := rfl
    rw [this, List.filterMap_some, if_neg hne]
  have hsearch : search_with_ids ctx (embed_text (pyStrip q)) k (some ids) = [] := by
    have hfilter : ids.filter
        (fun i => decide (0 ≤ i ∧ i < (ctx.image_paths.length : Int))) = [] := by
      rw [List.filter_eq_nil_iff]
      intro a ha
      rcases hrange a ha with h | h <;> simp <;> omega
    simp only [search_with_ids, if_neg hne, hfilter, if_pos]
  simp only [search_post, Option.getD_some, htk]
  rw [if_neg hq, hparse, hsearch]
  rfl

/-- Witness for C10 with two images and out-of-range ids `[5, -2]`. -/
theorem search_all_out_of_range_empty_witness :
    search_post ⟨["a", "b"], [[0], [3]]⟩ (fun _ => [1]) (fun _ => none)
      ⟨some "x", some (Json.jnum 4), some (Json.jarr ([5, -2].map Json.jnum))⟩ =
      ([Eff.contextCacheGet, Eff.embedTextCall, Eff.searchRun], Resp.ok []) :=
  search_all_out_of_range_empty ⟨["a", "b"], [[0], [3]]⟩ (fun _ => [1]) (fun _ => none)
    "x" (Json.jnum 4) 4 [5, -2] (by decide) rfl (by decide) (by decide)

/-! ## C9: invalid inputs are not rejected at the boundary -/

/-- C9 as stated is false at concrete inputs.  A request whose subset ids
are malformed (`["foo"]`, no coercible entry) is not rejected: the
malformed filter is silently dropped and an unrestricted full search runs,
returning 200 with results.  And a request with a non-integer `top_k` does
get a 400 client error, but only after the context cache has been consulted
(the effect trace starts with the cache get), not before touching any
cache. -/
theorem invalid_input_rejection_counterexample :
    search_post ⟨["a", "b"], [[0], [3]]⟩ (fun _ => [1]) (fun _ => none)
      ⟨some "x", none, some (Json.jarr [Json.jstr "foo"])⟩ =
      ([Eff.contextCacheGet, Eff.embedTextCall, Eff.searchRun],
        Resp.ok [(0, 1), (1, 4)]) ∧
    search_post ⟨["a", "b"], [[0], [3]]⟩ (fun _ => [1]) (fun _ => none)
      ⟨some "x", some (Json.jstr "abc"), none⟩ =
      ([Eff.contextCacheGet], Resp.clientError 400 "top_k must be an integer") := by
  constructor
  · rfl
  · rfl

/-- C9 amended: non-integer `top_k` and empty/missing `query` are rejected
with a 400 client error, but the dataset context cache is consulted first
(the cache-get effect precedes every response); malformed entries in a
subset id list are silently skipped, a subset list with no coercible entry
degenerates to `None` (an unrestricted full search); out-of-range indices
are silently filtered, and a fully out-of-range subset yields `[]` rather
than a client error. -/
theorem invalid_input_rejection_amended (ctx : DatasetContext)
    (embed_text : String → List Int) (loads : String → Option Json)
    (body : SearchBody) :
    (intCoerce (body.top_k.getD (Json.jnum 100)) = none →
      search_post ctx embed_text loads body =
        ([Eff.contextCacheGet], Resp.clientError 400 "top_k must be an integer")) ∧
    (∀ k, intCoerce (body.top_k.getD (Json.jnum 100)) = some k →
      pyStrip (body.query.getD "") = "" →
      search_post ctx embed_text loads body =
        ([Eff.contextCacheGet], Resp.clientError 400 "Missing query")) ∧
    (∀ xs, (∀ x ∈ xs, intCoerce x = none) →
      parse_image_ids loads (some (Json.jarr xs)) = none) ∧
    (∀ q k ids,
      ids.filter (fun i => decide (0 ≤ i ∧ i < (ctx.image_paths.length : Int))) = [] →
      ids ≠ [] → search_with_ids ctx q k (some ids) = []) := by
  refine ⟨?_, ?_, ?_, ?_⟩
  · intro h
    simp only [search_post, h]
  · intro k hk hq
    simp [search_post, hk, hq]
  · intro xs hxs
    simp only [parse_image_ids, coerceIds]
    rw [List.filterMap_eq_nil_iff.mpr hxs]
    rfl
  · intro q k ids hfilter hne
    simp only [search_with_ids, if_neg hne, hfilter, if_pos]

/-- Witness for the amended C9 on concrete requests. -/
theorem invalid_input_rejection_amended_witness :
    search_post ⟨["a", "b"], [[0], [3]]⟩ (fun _ => [1]) (fun _ => none)
      ⟨some "x", some (Json.jstr "abc"), none⟩ =
      ([Eff.contextCacheGet], Resp.clientError 400 "top_k must be an integer") ∧
    search_post ⟨["a", "b"], [[0], [3]]⟩ (fun _ => [1]) (fun _ => none)
      ⟨some "  ", none, none⟩ =
      ([Eff.contextCacheGet], Resp.clientError 400 "Missing query") ∧
    parse_image_ids (fun _ => none) (some (Json.jarr [Json.jstr "foo"])) = none ∧
    search_with_ids ⟨["a", "b"], [[0], [3]]⟩ [1] 5 (some [7, -1]) = [] :=
  ⟨(invalid_input_rejection_amended ⟨["a", "b"], [[0], [3]]⟩ (fun _ => [1]) (fun _ => none)
      ⟨some "x", some (Json.jstr "abc"), none⟩).1 rfl,
   (invalid_input_rejection_amended ⟨["a", "b"], [[0], [3]]⟩ (fun _ => [1]) (fun _ => none)
      ⟨some "  ", none, none⟩).2.1 100 rfl rfl,
   (invalid_input_rejection_amended ⟨["a", "b"], [[0], [3]]⟩ (fun _ => [1]) (fun _ => none)
      ⟨none, none, none⟩).2.2.1 [Json.jstr "foo"] (by decide),
   (invalid_input_rejection_amended ⟨["a", "b"], [[0], [3]]⟩ (fun _ => [1]) (fun _ => none)
      ⟨none, none, none⟩).2.2.2 [1] 5 [7, -1] (by decide) (by decide)⟩

/-! ## C8: lemmas on the canonical JSON serialization -/

lemma escapeChar_plain {c : Char} (h : plainChar c = true) : escapeChar c = [c] := by
  unfold plainChar at h
  simp only [Bool.and_eq_true, decide_eq_true_eq] at h
  obtain ⟨⟨⟨h1, h2⟩, h3⟩, h4⟩ := h
  have h3a : c ≠ '"' := by simpa using h3
  have h4a : c ≠ '\\' := by simpa using h4
  unfold escapeChar
  rw [if_neg h3a, if_neg h4a]
  rw [if_neg (by intro hc; subst hc; exact absurd h1 (by decide))]
  rw [if_neg (by intro hc; subst hc; exact absurd h1 (by decide))]
  rw [if_neg (by intro hc; subst hc; exact absurd h1 (by decide))]
  rw [if_neg (by omega), if_neg (by omega), if_neg (by omega)]

lemma flatten_escape_plain {cs : List Char} (h : ∀ c ∈ cs, plainChar c = true) :
    (cs.map escapeChar).flatten = cs := by
  induction cs with
  | nil => rfl
  | cons c cs ih =>
    simp only [List.map_cons, List.flatten_cons]
    rw [escapeChar_plain (h c (by simp)), ih (fun x hx => h x (by simp [hx]))]
    rfl

lemma encString_plain {s : String} (h : plainString s = true) :
    encString s = '"' :: s.data ++ ['"'] := by
  unfold encString
  unfold plainString at h
  rw [List.all_eq_true] at h
  rw [flatten_escape_plain h]

lemma digitVal_digitChar {n : Nat} (h : n < 10) : digitVal (digitChar n) = n := by
  have : ∀ m, m < 10 → digitVal (digitChar m) = m := by decide
  exact this n h

lemma digitChar_isDigit {n : Nat} (h : n < 10) : (digitChar n).isDigit = true := by
  have : ∀ m, m < 10 → (digitChar m).isDigit = true := by decide
  exact this n h

lemma natDigits_ne_nil (n : Nat) : natDigits n ≠ [] := by
  unfold natDigits
  by_cases h : n < 10
  · rw [if_pos h]; simp
  · rw [if_neg h]; simp

lemma natDigits_all_digits (n : Nat) : ∀ c ∈ natDigits n, c.isDigit = true := by
  induction n using Nat.strong_induction_on with
  | _ n ih =>
    intro c hc
    unfold natDigits at hc
    by_cases h : n < 10
    · rw [if_pos h] at hc
      simp only [List.mem_singleton] at hc
      subst hc
      exact digitChar_isDigit h
    · rw [if_neg h] at hc
      rcases List.mem_append.mp hc with h₂ | h₂
      · exact ih (n / 10) (Nat.div_lt_self (by omega) (by omega)) c h₂
      · simp only [List.mem_singleton] at h₂
        subst h₂
        exact digitChar_isDigit (Nat.mod_lt _ (by omega))

lemma digitsToNat_append_singleton (cs : List Char) (c : Char) :
    digitsToNat (cs ++ [c]) = 10 * digitsToNat cs + digitVal c := by
  unfold digitsToNat
  rw [List.foldl_append]
  rfl

lemma digitsToNat_natDigits (n : Nat) : digitsToNat (natDigits n) = n := by
  induction n using Nat.strong_induction_on with
  | _ n ih =>
    unfold natDigits
    by_cases h : n < 10
    · rw [if_pos h]
      show digitsToNat [digitChar n] = n
      unfold digitsToNat
      simp [digitVal_digitChar h]
    · rw [if_neg h]
      rw [digitsToNat_append_singleton,
        ih (n / 10) (Nat.div_lt_self (by omega) (by omega)),
        digitVal_digitChar (Nat.mod_lt _ (by omega))]
      omega

lemma natDigits_inj {a b : Nat} (h : natDigits a = natDigits b) : a = b := by
  have := congrArg digitsToNat h
  rwa [digitsToNat_natDigits, digitsToNat_natDigits] at this

lemma digits_append_cancel :
    ∀ {a b r r₂ : List Char}, (∀ c ∈ a, c.isDigit = true) → (∀ c ∈ b, c.isDigit = true) →
    (∀ c, r.head? = some c → c.isDigit = false) →
    (∀ c, r₂.head? = some c → c.isDigit = false) →
    a ++ r = b ++ r₂ → a = b ∧ r = r₂ := by
  intro a
  induction a with
  | nil =>
    intro b r r₂ _ hb hr _ h
    cases b with
    | nil => exact ⟨rfl, h⟩
    | cons d bs =>
      exfalso
      rw [List.nil_append, List.cons_append] at h
      have hd : r.head? = some d := by rw [h]; rfl
      have h1 := hr d hd
      rw [hb d (by simp)] at h1
      exact absurd h1 (by simp)
  | cons c as ih =>
    intro b r r₂ ha hb hr hr₂ h
    cases b with
    | nil =>
      exfalso
      rw [List.nil_append, List.cons_append] at h
      have hd : r₂.head? = some c := by rw [← h]; rfl
      have h1 := hr₂ c hd
      rw [ha c (by simp)] at h1
      exact absurd h1 (by simp)
    | cons d bs =>
      simp only [List.cons_append, List.cons.injEq] at h
      obtain ⟨rfl, h⟩ := h
      obtain ⟨h3, h4⟩ := ih (fun x hx => ha x (by simp [hx]))
        (fun x hx => hb x (by simp [hx])) hr hr₂ h
      exact ⟨by rw [h3], h4⟩

lemma natDigits_head_digit (n : Nat) :
    ∃ c t, natDigits n = c :: t ∧ c.isDigit = true := by
  cases hd : natDigits n with
  | nil => exact absurd hd (natDigits_ne_nil n)
  | cons c t =>
    exact ⟨c, t, rfl, natDigits_all_digits n c (by rw [hd]; simp)⟩

lemma intDigits_head (n : Int) :
    ∃ c t, intDigits n = c :: t ∧ (c.isDigit = true ∨ c = '-') := by
  unfold intDigits
  by_cases h : n < 0
  · rw [if_pos h]
    exact ⟨'-', natDigits n.natAbs, rfl, Or.inr rfl⟩
  · rw [if_neg h]
    obtain ⟨c, t, h1, h2⟩ := natDigits_head_digit n.toNat
    exact ⟨c, t, h1, Or.inl h2⟩

lemma stopChar_facts {c : Char} (h : stopChar c = true) :
    c.isDigit = false ∧ c ≠ '-' ∧ c ≠ '"' := by
  unfold stopChar at h
  simp only [Bool.or_eq_true, decide_eq_true_eq] at h
  rcases h with rfl | rfl
  · exact ⟨by decide, by decide, by decide⟩
  · exact ⟨by decide, by decide, by decide⟩

lemma intDigits_cancel {n n₂ : Int} {c c₂ : Char} {r r₂ : List Char}
    (hc : stopChar c = true) (hc₂ : stopChar c₂ = true)
    (h : intDigits n ++ c :: r = intDigits n₂ ++ c₂ :: r₂) :
    n = n₂ ∧ c :: r = c₂ :: r₂ := by
  obtain ⟨hcd, hcm, -⟩ := stopChar_facts hc
  obtain ⟨hcd₂, hcm₂, -⟩ := stopChar_facts hc₂
  have hstop : ∀ x : Char, (c :: r).head? = some x → x.isDigit = false := by
    intro x hx
    simp only [List.head?_cons, Option.some.injEq] at hx
    subst hx
    exact hcd
  have hstop₂ : ∀ x : Char, (c₂ :: r₂).head? = some x → x.isDigit = false := by
    intro x hx
    simp only [List.head?_cons, Option.some.injEq] at hx
    subst hx
    exact hcd₂
  unfold intDigits at h
  by_cases h1 : n < 0 <;> by_cases h2 : n₂ < 0
  · rw [if_pos h1, if_pos h2] at h
    simp only [List.cons_append, List.cons.injEq, true_and] at h
    obtain ⟨hd, ht⟩ := digits_append_cancel (natDigits_all_digits _)
      (natDigits_all_digits _) hstop hstop₂ h
    have := natDigits_inj hd
    exact ⟨by omega, ht⟩
  · exfalso
    rw [if_pos h1, if_neg h2] at h
    obtain ⟨x, t, hx, hxd⟩ := natDigits_head_digit n₂.toNat
    rw [hx] at h
    simp only [List.cons_append, List.cons.injEq] at h
    rw [← h.1] at hxd
    exact absurd hxd (by decide)
  · exfalso
    rw [if_neg h1, if_pos h2] at h
    obtain ⟨x, t, hx, hxd⟩ := natDigits_head_digit n.toNat
    rw [hx] at h
    simp only [List.cons_append, List.cons.injEq] at h
    rw [h.1] at hxd
    exact absurd hxd (by decide)
  · rw [if_neg h1, if_neg h2] at h
    obtain ⟨hd, ht⟩ := digits_append_cancel (natDigits_all_digits _)
      (natDigits_all_digits _) hstop hstop₂ h
    have := natDigits_inj hd
    exact ⟨by omega, ht⟩

lemma quoted_cancel :
    ∀ {a b r r₂ : List Char}, (∀ c ∈ a, plainChar c = true) →
    (∀ c ∈ b, plainChar c = true) →
    a ++ '"' :: r = b ++ '"' :: r₂ → a = b ∧ r = r₂ := by
  intro a
  induction a with
  | nil =>
    intro b r r₂ _ hb h
    cases b with
    | nil =>
      rw [List.nil_append, List.nil_append, List.cons.injEq] at h
      exact ⟨rfl, h.2⟩
    | cons d bs =>
      exfalso
      rw [List.nil_append, List.cons_append, List.cons.injEq] at h
      have hd := hb d (by simp)
      rw [← h.1] at hd
      exact absurd hd (by decide)
  | cons c as ih =>
    intro b r r₂ ha hb h
    cases b with
    | nil =>
      exfalso
      rw [List.nil_append, List.cons_append, List.cons.injEq] at h
      have hd := ha c (by simp)
      rw [h.1] at hd
      exact absurd hd (by decide)
    | cons d bs =>
      simp only [List.cons_append, List.cons.injEq] at h
      obtain ⟨rfl, h⟩ := h
      obtain ⟨h3, h4⟩ := ih (fun x hx => ha x (by simp [hx]))
        (fun x hx => hb x (by simp [hx])) h
      exact ⟨by rw [h3], h4⟩

lemma encVal_scalar_cancel {v v₂ : Json} (hv : scalarPlain v = true)
    (hv₂ : scalarPlain v₂ = true) {c c₂ : Char} {r r₂ : List Char}
    (hc : stopChar c = true) (hc₂ : stopChar c₂ = true)
    (h : encVal v ++ c :: r = encVal v₂ ++ c₂ :: r₂) :
    v = v₂ ∧ c :: r = c₂ :: r₂ := by
  cases v with
  | jarr xs => simp [scalarPlain] at hv
  | jobj kvs => simp [scalarPlain] at hv
  | jnull =>
    cases v₂ with
    | jarr xs => simp [scalarPlain] at hv₂
    | jobj kvs => simp [scalarPlain] at hv₂
    | jnull =>
      simp only [encVal, List.cons_append, List.nil_append, List.cons.injEq,
        true_and] at h
      obtain ⟨h1, h2⟩ := h
      exact ⟨rfl, by rw [h1, h2]⟩
    | jbool b =>
      exfalso
      cases b <;>
        simp only [encVal, List.cons_append, List.nil_append, List.cons.injEq] at h <;>
        exact absurd h.1 (by decide)
    | jnum n =>
      exfalso
      obtain ⟨x, t, hx, hxd⟩ := intDigits_head n
      simp only [encVal, hx, List.cons_append, List.nil_append, List.cons.injEq] at h
      rcases hxd with hd | rfl
      · rw [← h.1] at hd
        exact absurd hd (by decide)
      · exact absurd h.1 (by decide)
    | jstr s =>
      exfalso
      simp only [scalarPlain] at hv₂
      simp only [encVal] at h
      rw [encString_plain hv₂] at h
      simp only [List.cons_append, List.nil_append, List.cons.injEq] at h
      exact absurd h.1 (by decide)
  | jbool b =>
    cases v₂ with
    | jarr xs => simp [scalarPlain] at hv₂
    | jobj kvs => simp [scalarPlain] at hv₂
    | jnull =>
      exfalso
      cases b <;>
        simp only [encVal, List.cons_append, List.nil_append, List.cons.injEq] at h <;>
        exact absurd h.1 (by decide)
    | jbool b₂ =>
      cases b <;> cases b₂ <;>
        simp only [encVal, List.cons_append, List.nil_append, List.cons.injEq,
          true_and] at h
      case false.false =>
        obtain ⟨h1, h2⟩ := h
        exact ⟨rfl, by rw [h1, h2]⟩
      case false.true => exact absurd h.1 (by decide)
      case true.false => exact absurd h.1 (by decide)
      case true.true =>
        obtain ⟨h1, h2⟩ := h
        exact ⟨rfl, by rw [h1, h2]⟩
    | jnum n =>
      exfalso
      obtain ⟨x, t, hx, hxd⟩ := intDigits_head n
      cases b <;>
        simp only [encVal, hx, List.cons_append, List.nil_append, List.cons.injEq] at h
      · rcases hxd with hd | rfl
        · rw [← h.1] at hd
          exact absurd hd (by decide)
        · exact absurd h.1 (by decide)
      · rcases hxd with hd | rfl
        · rw [← h.1] at hd
          exact absurd hd (by decide)
        · exact absurd h.1 (by decide)
    | jstr s =>
      exfalso
      simp only [scalarPlain] at hv₂
      cases b <;> simp only [encVal] at h <;> rw [encString_plain hv₂] at h <;>
        simp only [List.cons_append, List.nil_append, List.cons.injEq] at h <;>
        exact absurd h.1 (by decide)
  | jnum n =>
    cases v₂ with
    | jarr xs => simp [scalarPlain] at hv₂
    | jobj kvs => simp [scalarPlain] at hv₂
    | jnull =>
      exfalso
      obtain ⟨x, t, hx, hxd⟩ := intDigits_head n
      simp only [encVal, hx, List.cons_append, List.nil_append, List.cons.injEq] at h
      rcases hxd with hd | rfl
      · rw [h.1] at hd
        exact absurd hd (by decide)
      · exact absurd h.1 (by decide)
    | jbool b =>
      exfalso
      obtain ⟨x, t, hx, hxd⟩ := intDigits_head n
      cases b <;>
        simp only [encVal, hx, List.cons_append, List.nil_append, List.cons.injEq] at h
      · rcases hxd with hd | rfl
        · rw [h.1] at hd
          exact absurd hd (by decide)
        · exact absurd h.1 (by decide)
      · rcases hxd with hd | rfl
        · rw [h.1] at hd
          exact absurd hd (by decide)
        · exact absurd h.1 (by decide)
    | jnum n₂ =>
      simp only [encVal] at h
      obtain ⟨he, ht⟩ := intDigits_cancel hc hc₂ h
      exact ⟨by rw [he], ht⟩
    | jstr s =>
      exfalso
      simp only [scalarPlain] at hv₂
      obtain ⟨x, t, hx, hxd⟩ := intDigits_head n
      simp only [encVal, hx] at h
      rw [encString_plain hv₂] at h
      simp only [List.cons_append, List.nil_append, List.cons.injEq] at h
      rcases hxd with hd | rfl
      · rw [h.1] at hd
        exact absurd hd (by decide)
      · exact absurd h.1 (by decide)
  | jstr s =>
    cases v₂ with
    | jarr xs => simp [scalarPlain] at hv₂
    | jobj kvs => simp [scalarPlain] at hv₂
    | jnull =>
      exfalso
      simp only [scalarPlain] at hv
      simp only [encVal] at h
      rw [encString_plain hv] at h
      simp only [List.cons_append, List.nil_append, List.cons.injEq] at h
      exact absurd h.1 (by decide)
    | jbool b =>
      exfalso
      simp only [scalarPlain] at hv
      cases b <;> simp only [encVal] at h <;> rw [encString_plain hv] at h <;>
        simp only [List.cons_append, List.nil_append, List.cons.injEq] at h <;>
        exact absurd h.1 (by decide)
    | jnum n₂ =>
      exfalso
      simp only [scalarPlain] at hv
      obtain ⟨x, t, hx, hxd⟩ := intDigits_head n₂
      simp only [encVal, hx] at h
      rw [encString_plain hv] at h
      simp only [List.cons_append, List.nil_append, List.cons.injEq] at h
      rcases hxd with hd | rfl
      · rw [← h.1] at hd
        exact absurd hd (by decide)
      · exact absurd h.1 (by decide)
    | jstr s₂ =>
      simp only [scalarPlain] at hv hv₂
      simp only [encVal] at h
      rw [encString_plain hv, encString_plain hv₂] at h
      simp only [List.cons_append, List.append_assoc, List.singleton_append,
        List.cons.injEq, true_and] at h
      unfold plainString at hv hv₂
      obtain ⟨hd, ht⟩ := quoted_cancel (List.all_eq_true.mp hv)
        (List.all_eq_true.mp hv₂) h
      exact ⟨by rw [String.ext hd], ht⟩

lemma encMembers_cancel :
    ∀ {kvs kvs₂ : List (String × Json)} {r r₂ : List Char},
    (∀ kv ∈ kvs, plainString kv.1 = true ∧ scalarPlain kv.2 = true) →
    (∀ kv ∈ kvs₂, plainString kv.1 = true ∧ scalarPlain kv.2 = true) →
    encMembers kvs ++ '}' :: r = encMembers kvs₂ ++ '}' :: r₂ →
    kvs = kvs₂ ∧ r = r₂ := by
  intro kvs
  induction kvs with
  | nil =>
    intro kvs₂ r r₂ _ hb h
    cases kvs₂ with
    | nil =>
      simp only [encMembers, List.nil_append, List.cons.injEq, true_and] at h
      exact ⟨rfl, h⟩
    | cons kv₂ t₂ =>
      exfalso
      have hp₂ := (hb kv₂ (by simp)).1
      cases t₂ with
      | nil =>
        simp only [encMembers] at h
        rw [encString_plain hp₂] at h
        simp only [List.nil_append, List.cons_append, List.append_assoc,
          List.singleton_append, List.cons.injEq] at h
        exact absurd h.1 (by decide)
      | cons y ys =>
        simp only [encMembers] at h
        rw [encString_plain hp₂] at h
        simp only [List.nil_append, List.cons_append, List.append_assoc,
          List.singleton_append, List.cons.injEq] at h
        exact absurd h.1 (by decide)
  | cons kv t ih =>
    intro kvs₂ r r₂ ha hb h
    have hpk := (ha kv (by simp)).1
    have hps := (ha kv (by simp)).2
    cases kvs₂ with
    | nil =>
      exfalso
      cases t with
      | nil =>
        simp only [encMembers] at h
        rw [encString_plain hpk] at h
        simp only [List.nil_append, List.cons_append, List.append_assoc,
          List.singleton_append, List.cons.injEq] at h
        exact absurd h.1 (by decide)
      | cons y ys =>
        simp only [encMembers] at h
        rw [encString_plain hpk] at h
        simp only [List.nil_append, List.cons_append, List.append_assoc,
          List.singleton_append, List.cons.injEq] at h
        exact absurd h.1 (by decide)
    | cons kv₂ t₂ =>
      have hpk₂ := (hb kv₂ (by simp)).1
      have hps₂ := (hb kv₂ (by simp)).2
      cases t with
      | nil =>
        cases t₂ with
        | nil =>
          simp only [encMembers] at h
          rw [encString_plain hpk, encString_plain hpk₂] at h
          simp only [List.cons_append, List.append_assoc, List.singleton_append,
            List.cons.injEq, true_and] at h
          unfold plainString at hpk hpk₂
          obtain ⟨hk, htail⟩ := quoted_cancel (List.all_eq_true.mp hpk)
            (List.all_eq_true.mp hpk₂) h
          simp only [List.nil_append, List.cons.injEq, true_and] at htail
          obtain ⟨hv, htl⟩ := encVal_scalar_cancel hps hps₂ (by decide) (by decide) htail
          rw [List.cons.injEq] at htl
          have hkv : kv = kv₂ := Prod.ext (String.ext hk) hv
          exact ⟨by rw [hkv], htl.2⟩
        | cons y ys =>
          exfalso
          simp only [encMembers] at h
          rw [encString_plain hpk, encString_plain hpk₂] at h
          simp only [List.cons_append, List.append_assoc, List.singleton_append,
            List.cons.injEq, true_and] at h
          unfold plainString at hpk hpk₂
          obtain ⟨hk, htail⟩ := quoted_cancel (List.all_eq_true.mp hpk)
            (List.all_eq_true.mp hpk₂) h
          simp only [List.nil_append, List.cons.injEq, true_and] at htail
          obtain ⟨hv, htl⟩ := encVal_scalar_cancel hps hps₂ (by decide) (by decide) htail
          rw [List.cons.injEq] at htl
          exact absurd htl.1 (by decide)
      | cons x xs =>
        cases t₂ with
        | nil =>
          exfalso
          simp only [encMembers] at h
          rw [encString_plain hpk, encString_plain hpk₂] at h
          simp only [List.cons_append, List.append_assoc, List.singleton_append,
            List.cons.injEq, true_and] at h
          unfold plainString at hpk hpk₂
          obtain ⟨hk, htail⟩ := quoted_cancel (List.all_eq_true.mp hpk)
            (List.all_eq_true.mp hpk₂) h
          simp only [List.nil_append, List.cons.injEq, true_and] at htail
          obtain ⟨hv, htl⟩ := encVal_scalar_cancel hps hps₂ (by decide) (by decide) htail
          rw [List.cons.injEq] at htl
          exact absurd htl.1 (by decide)
        | cons y ys =>
          simp only [encMembers] at h
          rw [encString_plain hpk, encString_plain hpk₂] at h
          simp only [List.cons_append, List.append_assoc, List.singleton_append,
            List.cons.injEq, true_and] at h
          unfold plainString at hpk hpk₂
          obtain ⟨hk, htail⟩ := quoted_cancel (List.all_eq_true.mp hpk)
            (List.all_eq_true.mp hpk₂) h
          simp only [List.nil_append, List.cons.injEq, true_and] at htail
          obtain ⟨hv, htl⟩ := encVal_scalar_cancel hps hps₂ (by decide) (by decide) htail
          rw [List.cons.injEq] at htl
          obtain ⟨-, hnext⟩ := htl
          obtain ⟨hteq, hreq⟩ := ih (fun z hz => ha z (by simp [hz]))
            (fun z hz => hb z (by simp [hz])) hnext
          have hkv : kv = kv₂ := Prod.ext (String.ext hk) hv
          exact ⟨by rw [hkv, hteq], hreq⟩

lemma encObj_inj {kvs kvs₂ : List (String × Json)}
    (ha : ∀ kv ∈ kvs, plainString kv.1 = true ∧ scalarPlain kv.2 = true)
    (hb : ∀ kv ∈ kvs₂, plainString kv.1 = true ∧ scalarPlain kv.2 = true)
    (h : encVal (Json.jobj kvs) = encVal (Json.jobj kvs₂)) : kvs = kvs₂ := by
  simp only [encVal] at h
  injection h with h1 h2
  exact (encMembers_cancel ha hb h2).1

lemma encPayload_decomp (image_ids : List Int) (texts : List String)
    (params : List (String × Json)) (version : Int) :
    encPayload image_ids texts params version =
      payloadPre image_ids ++ encVal (Json.jobj params) ++ payloadSuf texts version := by
  simp only [encPayload, payloadPre, payloadSuf, encVal, encMembers,
    List.cons_append, List.append_assoc, List.singleton_append, List.nil_append]

lemma flatPlainParams_entries {kvs : List (String × Json)}
    (h : flatPlainParams kvs = true) :
    ∀ kv ∈ kvs, plainString kv.1 = true ∧ scalarPlain kv.2 = true := by
  unfold flatPlainParams at h
  rw [Bool.and_eq_true] at h
  have h₂ := List.all_eq_true.mp h.1
  intro kv hkv
  have := h₂ kv hkv
  rwa [Bool.and_eq_true] at this

lemma encPayload_params_inj {image_ids : List Int} {texts : List String}
    {params params₂ : List (String × Json)} {version : Int}
    (hp : flatPlainParams params = true) (hp₂ : flatPlainParams params₂ = true)
    (h : encPayload image_ids texts params version =
      encPayload image_ids texts params₂ version) : params = params₂ := by
  rw [encPayload_decomp, encPayload_decomp, List.append_assoc, List.append_assoc] at h
  have h₂ := List.append_cancel_left h
  have h₃ := List.append_cancel_right h₂
  exact encObj_inj (flatPlainParams_entries hp) (flatPlainParams_entries hp₂) h₃

lemma umap_cache_key_params_inj {h : List Char → String}
    (hinj : Function.Injective h) {image_ids : List Int} {texts : List String}
    {params params₂ : List (String × Json)} {version : Int}
    (hp : flatPlainParams params = true) (hp₂ : flatPlainParams params₂ = true)
    (hkey : umap_cache_key h image_ids texts params version =
      umap_cache_key h image_ids texts params₂ version) : params = params₂ := by
  unfold umap_cache_key at hkey
  have hdata := congrArg String.data hkey
  rw [String.data_append, String.data_append] at hdata
  have h₂ := List.append_cancel_left hdata
  exact encPayload_params_inj hp hp₂ (hinj (String.ext h₂))

/-- C8.  For any injective digest function (SHA-256's interface contract),
two layout requests with identical (id-subset, texts, parameters, version)
compute the same cache key, so after the first request stores its response
the second returns the stored response verbatim without recomputing or
modifying the cache; while any change to the (canonical, flat, plain)
parameter dict produces a different key and hence a cache miss. -/
theorem umap_cache_key_hit_miss {R : Type} (h : List Char → String)
    (hinj : Function.Injective h) (image_ids : List Int) (texts : List String)
    (params params₂ : List (String × Json)) (version : Int) (compute compute₂ : R)
    (hp : flatPlainParams params = true) (hp₂ : flatPlainParams params₂ = true) :
    get_umap_step ([] : List (String × R))
        (umap_cache_key h image_ids texts params version) compute =
      (compute, [(umap_cache_key h image_ids texts params version, compute)], false) ∧
    get_umap_step [(umap_cache_key h image_ids texts params version, compute)]
        (umap_cache_key h image_ids texts params version) compute₂ =
      (compute, [(umap_cache_key h image_ids texts params version, compute)], true) ∧
    (params ≠ params₂ →
      umap_cache_key h image_ids texts params₂ version ≠
        umap_cache_key h image_ids texts params version ∧
      (get_umap_step [(umap_cache_key h image_ids texts params version, compute)]
          (umap_cache_key h image_ids texts params₂ version) compute₂).2.2 = false) := by
  refine ⟨rfl, ?_, ?_⟩
  · simp [get_umap_step, odLookup, List.find?]
  · intro hne
    have hkne : umap_cache_key h image_ids texts params₂ version ≠
        umap_cache_key h image_ids texts params version := by
      intro hkey
      exact hne (umap_cache_key_params_inj hinj hp₂ hp hkey).symm
    refine ⟨hkne, ?_⟩
    have hbeq : (umap_cache_key h image_ids texts params version ==
        umap_cache_key h image_ids texts params₂ version) = false :=
      beq_eq_false_iff_ne.mpr (Ne.symm hkne)
    simp [get_umap_step, odLookup, List.find?, hbeq]

/-- Witness for C8 at a concrete request: `n_neighbors = 15` versus
`n_neighbors = 16`, digest = the identity packing of the character list. -/
theorem umap_cache_key_hit_miss_witness :
    get_umap_step ([] : List (String × Nat))
        (umap_cache_key (fun cs => String.mk cs) [0] ["q"]
          [("n_neighbors", Json.jnum 15)] 5) 7 =
      (7, [(umap_cache_key (fun cs => String.mk cs) [0] ["q"]
          [("n_neighbors", Json.jnum 15)] 5, 7)], false) ∧
    get_umap_step [(umap_cache_key (fun cs => String.mk cs) [0] ["q"]
          [("n_neighbors", Json.jnum 15)] 5, 7)]
        (umap_cache_key (fun cs => String.mk cs) [0] ["q"]
          [("n_neighbors", Json.jnum 15)] 5) 8 =
      (7, [(umap_cache_key (fun cs => String.mk cs) [0] ["q"]
          [("n_neighbors", Json.jnum 15)] 5, 7)], true) ∧
    (umap_cache_key (fun cs => String.mk cs) [0] ["q"]
          [("n_neighbors", Json.jnum 16)] 5 ≠
        umap_cache_key (fun cs => String.mk cs) [0] ["q"]
          [("n_neighbors", Json.jnum 15)] 5 ∧
      (get_umap_step [(umap_cache_key (fun cs => String.mk cs) [0] ["q"]
            [("n_neighbors", Json.jnum 15)] 5, 7)]
          (umap_cache_key (fun cs => String.mk cs) [0] ["q"]
            [("n_neighbors", Json.jnum 16)] 5) 8).2.2 = false) :=
  ⟨(umap_cache_key_hit_miss (fun cs => String.mk cs)
      (fun a b hh => congrArg String.data hh) [0] ["q"]
      [("n_neighbors", Json.jnum 15)] [("n_neighbors", Json.jnum 16)] 5 7 8
      (by decide) (by decide)).1,
   (umap_cache_key_hit_miss (fun cs => String.mk cs)
      (fun a b hh => congrArg String.data hh) [0] ["q"]
      [("n_neighbors", Json.jnum 15)] [("n_neighbors", Json.jnum 16)] 5 7 8
      (by decide) (by decide)).2.1,
   (umap_cache_key_hit_miss (fun cs => String.mk cs)
      (fun a b hh => congrArg String.data hh) [0] ["q"]
      [("n_neighbors", Json.jnum 15)] [("n_neighbors", Json.jnum 16)] 5 7 8
      (by decide) (by decide)).2.2 (by simp)⟩
